import Mathlib

/-!
Verification of the radioactive-data detection pipeline
(`detect_radioactivity.py`, driven by `table2.py`).

The Python source is shallowly embedded below: exact real numbers (`ℝ`) stand
for the mathematical values that the floating-point pipeline approximates,
exact rationals (`ℚ`) stand for tensor entries where only structural behaviour
(shapes, error propagation) matters, and fallible steps return
`Except String _` with `Except.error` standing for a raised Python exception.
-/

namespace Radioactive

open MeasureTheory intervalIntegral Real Set

/-! ## CosineSignificance: `cosine_pvalue` (detect_radioactivity.py lines 23-36)

`scipy.special.betainc a b x` is the regularized incomplete beta function
`I_x(a,b)`: the integral of `t^(a-1) * (1-t)^(b-1)` from `0` to `x`, divided
by the complete beta integral from `0` to `1`. -/

noncomputable def betaFn (a b : ℝ) (t : ℝ) : ℝ :=
  t ^ (a - 1) * (1 - t) ^ (b - 1)

/-- The complete beta integral `B(a,b)`. -/
noncomputable def Bint (a b : ℝ) : ℝ :=
  ∫ t in (0:ℝ)..1, betaFn a b t

noncomputable def betainc (a b x : ℝ) : ℝ :=
  (∫ t in (0:ℝ)..x, betaFn a b t) / Bint a b

/-- The `c >= 0` branch of `cosine_pvalue`: `0.5 * betainc((d-1)/2, 1/2, 1-c**2)`. -/
noncomputable def cosine_pvalue_pos (c : ℝ) (d : ℕ) : ℝ :=
  (1 / 2) * betainc (((d : ℝ) - 1) / 2) (1 / 2) (1 - c ^ 2)

/-- `cosine_pvalue(c, d)` from detect_radioactivity.py lines 23-36.
For `c >= 0` the source returns `0.5 * betainc((d-1)/2, 1/2, 1-c**2)`;
otherwise it returns `1 - cosine_pvalue(-c, d)`, and since `-c > 0` that
recursive call takes the first branch, so the recursion is unfolded once
here (exactly one unfolding happens in the source for any real `c`). -/
noncomputable def cosine_pvalue (c : ℝ) (d : ℕ) : ℝ :=
  if 0 ≤ c then cosine_pvalue_pos c d else 1 - cosine_pvalue_pos (-c) d

/-! ## The dynamic type check of `cosine_pvalue` (line 28)

`assert type(c) in [float, np.float64, np.float32]` inspects the exact
runtime type of the first argument before any arithmetic.  `PyVal` models
the runtime-tagged scalar values that can reach the call. -/

inductive PyVal where
  | pyInt : ℤ → PyVal
  | pyBool : Bool → PyVal
  | pyStr : String → PyVal
  | pyFloat : ℝ → PyVal
  | npFloat64 : ℝ → PyVal
  | npFloat32 : ℝ → PyVal

/-- `type(c) in [float, np.float64, np.float32]` (exact type membership;
`int`, `bool`, `str`, numpy integer types are all rejected). -/
def isFloatLike : PyVal → Bool
  | .pyFloat _ => true
  | .npFloat64 _ => true
  | .npFloat32 _ => true
  | _ => false

/-- `cosine_pvalue` including its leading `assert` on the runtime type of `c`:
an argument whose type is not exactly float/np.float64/np.float32 raises
`AssertionError` before any probability is computed. -/
noncomputable def cosine_pvalue_checked (c : PyVal) (d : ℕ) : Except String ℝ :=
  match c with
  | .pyFloat x => .ok (cosine_pvalue x d)
  | .npFloat64 x => .ok (cosine_pvalue x d)
  | .npFloat32 x => .ok (cosine_pvalue x d)
  | _ => .error "AssertionError"

/-! ## Weight projection, normalization and scores
(detect_radioactivity.py lines 160-165)

```
W = np.dot(W, X.T)
W /= np.linalg.norm(W, axis=1, keepdims=True)
scores = np.sum(W * carrier, axis=1)
```

Tensor entries are modelled as exact rationals.  numpy elementwise division
by zero does NOT raise: it emits a RuntimeWarning and produces IEEE-754
`nan` (`0/0`) or `±inf` (`x/0`, `x ≠ 0`), and the computation continues.
`NpReal` models the values such an array can hold: `fin x s` denotes the
exact real `x / sqrt s` with `s > 0` (the normalized entries), and `nan`,
`pinf`, `ninf` the IEEE special values. -/

inductive NpReal where
  | fin : ℚ → ℚ → NpReal
  | nan : NpReal
  | pinf : NpReal
  | ninf : NpReal
deriving DecidableEq

/-- Sum of squares of a row: `np.linalg.norm(row)` is its square root,
which is zero exactly when `sumSq` is zero. -/
def sumSq (row : List ℚ) : ℚ := (row.map fun x => x * x).sum

/-- IEEE division `x / sqrt s` as numpy performs it: division by a zero norm
yields `nan` or `±inf` with only a warning, never an exception. -/
def npDivBySqrt (x s : ℚ) : NpReal :=
  if s = 0 then (if x = 0 then .nan else if 0 < x then .pinf else .ninf)
  else .fin x s

/-- Row normalization `row / np.linalg.norm(row)`, elementwise. -/
def npNormalizeRow (row : List ℚ) : List NpReal :=
  row.map fun x => npDivBySqrt x (sumSq row)

/-- IEEE multiplication of an array entry by an exact scalar (a carrier
entry): `nan` propagates, infinities follow the sign of the scalar and
`inf * 0 = nan`. -/
def NpReal.mulQ : NpReal → ℚ → NpReal
  | .fin x s, c => .fin (x * c) s
  | .nan, _ => .nan
  | .pinf, c => if 0 < c then .pinf else if c < 0 then .ninf else .nan
  | .ninf, c => if 0 < c then .ninf else if c < 0 then .pinf else .nan

/-- IEEE addition: `nan` propagates and `inf + (-inf) = nan`.  Finite values
`x / sqrt s` and `y / sqrt t` with the same radicand add exactly; a zero
summand is absorbed; distinct radicands never occur in one dot product
(every entry of a normalized row carries the same row norm), so that
unrepresentable case conservatively maps to `nan`. -/
def NpReal.add : NpReal → NpReal → NpReal
  | .nan, _ => .nan
  | _, .nan => .nan
  | .pinf, .ninf => .nan
  | .ninf, .pinf => .nan
  | .pinf, _ => .pinf
  | _, .pinf => .pinf
  | .ninf, _ => .ninf
  | _, .ninf => .ninf
  | .fin x s, .fin y t =>
    if x = 0 then .fin y t else if y = 0 then .fin x s
    else if s = t then .fin (x + y) s else .nan

/-- `np.sum(row * carrier_row)`: elementwise product then sum. -/
def npDot (xs : List NpReal) (cs : List ℚ) : NpReal :=
  (List.zipWith NpReal.mulQ xs cs).foldl NpReal.add (.fin 0 1)

/-- The per-class score: dot product of the normalized projected weight row
with the corresponding carrier row. -/
def npScoreRow (row c : List ℚ) : NpReal := npDot (npNormalizeRow row) c

/-- Width of a 2-D tensor modelled as a list of rows (the width of an empty
list of rows is unrecoverable in this model and defaults to 0; real tensors
carry their width even with zero rows, so theorems below always require the
relevant matrices to be nonempty). -/
def matWidth (m : List (List ℚ)) : ℕ := (m.headD []).length

/-- Exact dot product of two rational rows. -/
def dotQ (u v : List ℚ) : ℚ := (List.zipWith (fun a b => a * b) u v).sum

/-- `np.dot(W, X.T)`: entry `(i, j)` is the dot product of row `i` of `W`
with row `j` of `X`; mismatched inner dimensions raise `ValueError`. -/
def matMulT (W X : List (List ℚ)) : Except String (List (List ℚ)) :=
  if (∀ r ∈ W, r.length = matWidth W) ∧ (∀ r ∈ X, r.length = matWidth W) then
    .ok (W.map fun wr => X.map fun xr => dotQ wr xr)
  else .error "ValueError: shapes not aligned"

/-- Lines 160-165 of detect_radioactivity.py: project the classifier weights
into marking space, normalize each row, and compute the per-class scores.
The elementwise product `W * carrier` requires equal shapes (size-1
broadcast axes never occur for the 10 x 512 carriers).  Note there is no
error branch for a zero-norm row: numpy division only warns. -/
def projectNormalizeScore (W X carrier : List (List ℚ)) :
    Except String (List NpReal) :=
  (matMulT W X).bind fun P =>
    if P.length = carrier.length ∧
        ∀ pc ∈ P.zip carrier, pc.1.length = pc.2.length then
      .ok (List.zipWith npScoreRow P carrier)
    else .error "ValueError: operands could not be broadcast together"

/-! ## FeatureExtractor (detect_radioactivity.py lines 43-94)

A batch is modelled as the model's output for that batch: a matrix with one
feature row per image (`sz = img.size(0)` equals the number of rows, since
the frozen network preserves the batch dimension).  The loop preallocates an
`n x d` zero matrix on the first batch, taking `d = ft.size(1)` from that
batch, and executes `features[offset:offset+sz] = ft` per batch; at the end
it runs `assert offset == n` and then builds the return tuple, which touches
the loop-local name `all_targets` (an `UnboundLocalError` when no batch was
processed).  Torch slice assignment clamps the row slice to `[0, n)` and
copies with numpy-style broadcasting: the source must have exactly the
sliced number of rows or 1 row, and exactly the target width or width 1;
otherwise it raises a RuntimeError. -/

/-- Broadcast a width-1 source row across `d` columns. -/
def expandRow (d : ℕ) (row : List ℚ) : List ℚ :=
  if row.length = 1 then List.replicate d (row.headD 0) else row

/-- `mat[offset:offset+sz] = src` with torch semantics: the row slice is
clamped to `[0, mat.length)`, so it covers
`min (offset+sz) mat.length - min offset mat.length` target rows (note
`List.take`/`List.drop` already clamp out-of-range indices); the copy
broadcasts: the source must have exactly that many rows or 1 row, and
exactly the target width or width 1, otherwise a `RuntimeError` is raised. -/
def sliceAssign (mat : List (List ℚ)) (offset sz : ℕ) (src : List (List ℚ)) :
    Except String (List (List ℚ)) :=
  if ∀ r ∈ src, r.length = matWidth src then
    if (src.length = min (offset + sz) mat.length - min offset mat.length ∨
          src.length = 1) ∧ (matWidth src = matWidth mat ∨ matWidth src = 1) then
      .ok (mat.take offset ++
        ((List.range (min (offset + sz) mat.length - min offset mat.length)).map
          fun j =>
            expandRow (matWidth mat) (src.getD (if src.length = 1 then 0 else j) [])) ++
        mat.drop (offset + sz))
    else .error "RuntimeError: shape mismatch"
  else .error "ragged source tensor"

/-- The batch loop of `extract_features`, carrying the `features` buffer
(`none` until the first batch allocates it) and the running `offset`.  After
the last batch: `assert offset == n`, then the return statement, which
raises `UnboundLocalError` when no batch ever ran. -/
def extractLoop (n : ℕ) :
    Option (List (List ℚ)) → ℕ → List (List (List ℚ)) →
      Except String (List (List ℚ))
  | fok, offset, [] =>
    if offset = n then
      match fok with
      | some f => .ok f
      | none => .error "UnboundLocalError: all_targets"
    else .error "AssertionError: offset == n"
  | none, offset, ft :: rest =>
    match sliceAssign (List.replicate n (List.replicate (matWidth ft) 0))
        offset ft.length ft with
    | .error e => .error e
    | .ok m2 => extractLoop n (some m2) (offset + ft.length) rest
  | some f, offset, ft :: rest =>
    match sliceAssign f offset ft.length ft with
    | .error e => .error e
    | .ok m2 => extractLoop n (some m2) (offset + ft.length) rest

/-- `extract_features` (lines 43-94) for a dataset of declared size `n`:
returns the `n`-row feature matrix or the first raised error. -/
def extract_features (n : ℕ) (batches : List (List (List ℚ))) :
    Except String (List (List ℚ)) :=
  extractLoop n none 0 batches

/-- Total number of feature rows over all batches. -/
def batchRowSum (batches : List (List (List ℚ))) : ℕ :=
  (batches.map List.length).sum

/-! ## PValueCombiner (detect_radioactivity.py line 171)

`scipy.stats.combine_pvalues(p_vals)` with the default Fisher method:
statistic `T = -2 * sum(log p_i)` and combined p-value
`chi2.sf(T, 2k)` for `k` input p-values.  For the even degrees of freedom
`2k` the chi-square survival function has the exact closed form
`exp(-T/2) * sum_{i<k} (T/2)^i / i!` (an Erlang tail).  A zero input
p-value drives the statistic to `+inf` and the combined value to `0`
exactly (scipy: `log 0 = -inf`, `chi2.sf(inf) = 0`). -/

/-- Chi-square survival function at even degrees of freedom `2k`
(`chi2.sf(x, 2k)`); `1` below the support, as scipy returns. -/
noncomputable def chi2_sf_even (k : ℕ) (x : ℝ) : ℝ :=
  if x < 0 then 1
  else Real.exp (-(x / 2)) * ∑ i ∈ Finset.range k, (x / 2) ^ i / (i.factorial : ℝ)

open Classical in
/-- `scipy.stats.combine_pvalues(ps)[1]` (Fisher's method, the default). -/
noncomputable def combine_pvalues (ps : List ℝ) : ℝ :=
  if ∀ p ∈ ps, p ≠ 0 then
    chi2_sf_even ps.length (-2 * (ps.map Real.log).sum)
  else 0

/-! ## The returned value of `main` (detect_radioactivity.py lines 109-174)

The body of `main` computes `scores` (line 165), `p_vals` (line 170) and the
combined p-value (line 171), prints them, and then falls off the end of the
function without any `return` statement, so a completed run returns Python
`None`.  `main_return` embeds the value a completed run hands back to its
caller, as a function of the quantities the run computed. -/

def main_return (_scores _p_vals : List ℝ) (_combined : ℝ) :
    Option (List ℝ × List ℝ × ℝ) :=
  none

/-- Number of parameters of `main` (`batch_size`, `num_workers`). -/
def main_param_count : ℕ := 2

/-- Number of positional arguments `table2.py` `step4` (lines 149-151) passes to
`detect_radioactivity` (= `main`): carrier path, marking network, target
network, target checkpoint. -/
def step4_arg_count : ℕ := 4

end Radioactive

namespace Radioactive

open MeasureTheory intervalIntegral Real Set

/-- Claim C1: the detection entry point returns the triple
(per-class scores, per-class p-values, combined p-value) for every run that
completes without a fatal error.  The code violates this: `main` has no
`return` statement, so a completed run returns `None` (embedded as `none`)
whatever scores and p-values it computed, and its two parameters cannot even
accept the four positional arguments `table2.step4` passes. -/
theorem C1_main_returns_none :
    (∀ (scores p_vals : List ℝ) (combined : ℝ),
      main_return scores p_vals combined = none) ∧
    main_param_count < step4_arg_count := by
  refine ⟨fun _ _ _ => rfl, ?_⟩
  decide

/-! ### Analysis of the regularized incomplete beta function -/

/-- The beta integrand is interval integrable on `[0,1]` for positive shape
parameters (transferred from the complex beta-integral convergence lemma). -/
theorem betaFn_integrable {a b : ℝ} (ha : 0 < a) (hb : 0 < b) :
    IntervalIntegrable (betaFn a b) volume 0 1 := by
  have hC := @Complex.betaIntegral_convergent (a : ℂ) (b : ℂ)
    (by simpa using ha) (by simpa using hb)
  rw [intervalIntegrable_iff] at hC ⊢
  have hre : IntegrableOn
      (fun x : ℝ => ((x : ℂ) ^ ((a : ℂ) - 1) * (1 - (x : ℂ)) ^ ((b : ℂ) - 1)).re)
      (Ι (0:ℝ) 1) volume := by
    simpa using hC.re
  refine hre.congr_fun ?_ measurableSet_uIoc
  intro x hx
  rw [uIoc_of_le (by norm_num : (0:ℝ) ≤ 1)] at hx
  have hx0 : (0:ℝ) ≤ x := le_of_lt hx.1
  have hx1 : (0:ℝ) ≤ 1 - x := by linarith [hx.2]
  have e1 : ((x : ℂ)) ^ ((a : ℂ) - 1) = ((x ^ (a - 1) : ℝ) : ℂ) := by
    rw [Complex.ofReal_cpow hx0]
    norm_cast
  have e2 : ((1 : ℂ) - (x : ℂ)) ^ ((b : ℂ) - 1) = (((1 - x) ^ (b - 1) : ℝ) : ℂ) := by
    rw [show (1 : ℂ) - (x : ℂ) = (((1 - x : ℝ)) : ℂ) by push_cast; ring,
      Complex.ofReal_cpow hx1]
    norm_cast
  show ((x : ℂ) ^ ((a : ℂ) - 1) * (1 - (x : ℂ)) ^ ((b : ℂ) - 1)).re = betaFn a b x
  rw [e1, e2, ← Complex.ofReal_mul, Complex.ofReal_re, betaFn]

theorem betaFn_nonneg (a b : ℝ) {t : ℝ} (h0 : 0 ≤ t) (h1 : t ≤ 1) :
    0 ≤ betaFn a b t :=
  mul_nonneg (Real.rpow_nonneg h0 _) (Real.rpow_nonneg (by linarith) _)

theorem betaFn_pos (a b : ℝ) {t : ℝ} (ht : t ∈ Ioo (0:ℝ) 1) :
    0 < betaFn a b t :=
  mul_pos (Real.rpow_pos_of_pos ht.1 _) (Real.rpow_pos_of_pos (by linarith [ht.2]) _)

theorem Bint_pos {a b : ℝ} (ha : 0 < a) (hb : 0 < b) : 0 < Bint a b :=
  intervalIntegral_pos_of_pos_on (betaFn_integrable ha hb)
    (fun _ hx => betaFn_pos a b hx) one_pos

theorem betainc_zero (a b : ℝ) : betainc a b 0 = 0 := by
  simp [betainc]

/-- Monotonicity of the numerator of `betainc` in the upper limit. -/
theorem betaNum_mono {a b : ℝ} (ha : 0 < a) (hb : 0 < b) {x y : ℝ}
    (hx : 0 ≤ x) (hxy : x ≤ y) (hy : y ≤ 1) :
    (∫ t in (0:ℝ)..x, betaFn a b t) ≤ ∫ t in (0:ℝ)..y, betaFn a b t := by
  have hnn : 0 ≤ᵐ[volume.restrict (Ioc (0:ℝ) y)] betaFn a b := by
    filter_upwards [ae_restrict_mem measurableSet_Ioc] with t ht
    exact betaFn_nonneg a b (le_of_lt ht.1) (le_trans ht.2 hy)
  have hfi : IntervalIntegrable (betaFn a b) volume 0 y := by
    refine (betaFn_integrable ha hb).mono_set ?_
    rw [uIcc_of_le (le_trans hx hxy), uIcc_of_le (by norm_num : (0:ℝ) ≤ 1)]
    exact Icc_subset_Icc le_rfl hy
  exact integral_mono_interval le_rfl hx hxy hnn hfi

theorem betainc_mono {a b : ℝ} (ha : 0 < a) (hb : 0 < b) {x y : ℝ}
    (hx : 0 ≤ x) (hxy : x ≤ y) (hy : y ≤ 1) :
    betainc a b x ≤ betainc a b y := by
  unfold betainc
  exact (div_le_div_iff_of_pos_right (Bint_pos ha hb)).2 (betaNum_mono ha hb hx hxy hy)

theorem betainc_one {a b : ℝ} (ha : 0 < a) (hb : 0 < b) : betainc a b 1 = 1 :=
  div_self (Bint_pos ha hb).ne'

theorem betainc_le_one {a b : ℝ} (ha : 0 < a) (hb : 0 < b) {x : ℝ}
    (hx0 : 0 ≤ x) (hx1 : x ≤ 1) : betainc a b x ≤ 1 := by
  have := betainc_mono ha hb hx0 hx1 le_rfl
  rwa [betainc_one ha hb] at this

/-- For `d ≥ 2` the first shape parameter `(d-1)/2` is positive. -/
theorem shape_a_pos {d : ℕ} (hd : 2 ≤ d) : 0 < ((d : ℝ) - 1) / 2 := by
  have : (2 : ℝ) ≤ (d : ℝ) := by exact_mod_cast hd
  linarith

/-- The nonnegative branch of `cosine_pvalue` is antitone on `[0, 1]`. -/
theorem cosine_pvalue_pos_anti {d : ℕ} (hd : 2 ≤ d) {c₁ c₂ : ℝ}
    (h0 : 0 ≤ c₁) (h12 : c₁ ≤ c₂) (h2 : c₂ ≤ 1) :
    cosine_pvalue_pos c₂ d ≤ cosine_pvalue_pos c₁ d := by
  unfold cosine_pvalue_pos
  have hsq : c₁ ^ 2 ≤ c₂ ^ 2 := by nlinarith
  have hle : c₂ ^ 2 ≤ 1 := by nlinarith
  refine mul_le_mul_of_nonneg_left ?_ (by norm_num)
  exact betainc_mono (shape_a_pos hd) (by norm_num)
    (by nlinarith) (by linarith) (by nlinarith)

/-- The nonnegative branch of `cosine_pvalue` is at most `1/2` on `[0, 1]`. -/
theorem cosine_pvalue_pos_le_half {d : ℕ} (hd : 2 ≤ d) {c : ℝ}
    (h0 : 0 ≤ c) (h1 : c ≤ 1) : cosine_pvalue_pos c d ≤ 1 / 2 := by
  unfold cosine_pvalue_pos
  have := betainc_le_one (shape_a_pos hd) (by norm_num : (0:ℝ) < 1/2)
    (by nlinarith : (0:ℝ) ≤ 1 - c ^ 2) (by nlinarith)
  linarith

/-- Claim C3: for every dimensionality `d ≥ 2`, `cosine_pvalue` takes the
exact values `1/2`, `0` and `1` at the arguments `0`, `1` and `-1`. -/
theorem C3_boundary_values (d : ℕ) (hd : 2 ≤ d) :
    cosine_pvalue 0 d = 1 / 2 ∧ cosine_pvalue 1 d = 0 ∧
    cosine_pvalue (-1) d = 1 := by
  have ha := shape_a_pos hd
  have hzero : cosine_pvalue_pos 1 d = 0 := by
    unfold cosine_pvalue_pos
    norm_num [betainc_zero]
  refine ⟨?_, ?_, ?_⟩
  · rw [cosine_pvalue, if_pos le_rfl, cosine_pvalue_pos]
    norm_num [betainc_one ha (by norm_num : (0:ℝ) < 1/2)]
  · rw [cosine_pvalue, if_pos (by norm_num : (0:ℝ) ≤ 1)]
    exact hzero
  · rw [cosine_pvalue, if_neg (by norm_num), neg_neg, hzero]
    norm_num

/-- Witness for C3 at the concrete dimensionality `d = 2`. -/
theorem C3_boundary_values_witness :
    cosine_pvalue 0 2 = 1 / 2 ∧ cosine_pvalue 1 2 = 0 ∧
    cosine_pvalue (-1) 2 = 1 :=
  C3_boundary_values 2 (by norm_num)

/-- Claim C4: reflection identity.  For every `c ∈ (0, 1]` and `d ≥ 2`,
`cosine_pvalue (-c) d = 1 - cosine_pvalue c d`: the call with `-c < 0` takes
the `else` branch of the source, which returns one minus the value at `c`. -/
theorem C4_reflection (d : ℕ) (hd : 2 ≤ d) (c : ℝ) (h0 : 0 < c) (h1 : c ≤ 1) :
    cosine_pvalue (-c) d = 1 - cosine_pvalue c d := by
  rw [cosine_pvalue, cosine_pvalue, if_neg (by linarith), if_pos h0.le, neg_neg]

/-- Witness for C4 at `c = 1`, `d = 2`. -/
theorem C4_reflection_witness :
    cosine_pvalue (-1) 2 = 1 - cosine_pvalue 1 2 :=
  C4_reflection 2 (by norm_num) 1 one_pos le_rfl

/-- Claim C5: for fixed `d ≥ 2`, `cosine_pvalue` is monotonically
non-increasing in its first argument on `[-1, 1]`. -/
theorem C5_antitone (d : ℕ) (hd : 2 ≤ d) (c₁ c₂ : ℝ)
    (h1 : -1 ≤ c₁) (h12 : c₁ ≤ c₂) (h2 : c₂ ≤ 1) :
    cosine_pvalue c₂ d ≤ cosine_pvalue c₁ d := by
  unfold cosine_pvalue
  by_cases hc1 : 0 ≤ c₁
  · rw [if_pos hc1, if_pos (le_trans hc1 h12)]
    exact cosine_pvalue_pos_anti hd hc1 h12 h2
  · push_neg at hc1
    rw [if_neg (not_le.2 hc1)]
    by_cases hc2 : 0 ≤ c₂
    · rw [if_pos hc2]
      have hA := cosine_pvalue_pos_le_half hd hc2 h2
      have hB := cosine_pvalue_pos_le_half hd
        (by linarith : (0:ℝ) ≤ -c₁) (by linarith)
      linarith
    · push_neg at hc2
      rw [if_neg (not_le.2 hc2)]
      have := cosine_pvalue_pos_anti hd
        (by linarith : (0:ℝ) ≤ -c₂) (by linarith : -c₂ ≤ -c₁) (by linarith)
      linarith

/-- Witness for C5 at `d = 2`, `c₁ = -1`, `c₂ = 1`. -/
theorem C5_antitone_witness : cosine_pvalue 1 2 ≤ cosine_pvalue (-1) 2 :=
  C5_antitone 2 (by norm_num) (-1) 1 le_rfl (by norm_num) le_rfl

/-! ### Zero-norm rows: normalization and scoring -/

theorem sumSq_cons (x : ℚ) (t : List ℚ) : sumSq (x :: t) = x * x + sumSq t := by
  simp [sumSq]

theorem sumSq_nonneg (row : List ℚ) : 0 ≤ sumSq row := by
  induction row with
  | nil => simp [sumSq]
  | cons x t ih => rw [sumSq_cons]; nlinarith [mul_self_nonneg x]

theorem eq_zero_of_sumSq_eq_zero {row : List ℚ} (h : sumSq row = 0) :
    ∀ x ∈ row, x = 0 := by
  induction row with
  | nil => simp
  | cons a t ih =>
    rw [sumSq_cons] at h
    have h1 : 0 ≤ a * a := mul_self_nonneg a
    have h2 := sumSq_nonneg t
    have ha : a = 0 := by nlinarith
    have ht : sumSq t = 0 := by nlinarith
    intro x hx
    rcases List.mem_cons.1 hx with rfl | hx
    · exact ha
    · exact ih ht x hx

/-- Normalizing a zero-norm row produces `nan` in every position: each entry
is `0`, and `0 / 0` is IEEE `nan`. -/
theorem npNormalizeRow_of_sumSq_zero {row : List ℚ} (h : sumSq row = 0) :
    npNormalizeRow row = row.map fun _ => NpReal.nan := by
  unfold npNormalizeRow
  refine List.map_congr_left fun x hx => ?_
  rw [h, npDivBySqrt, if_pos rfl, if_pos (eq_zero_of_sumSq_eq_zero h x hx)]

theorem NpReal.add_nan (a : NpReal) : a.add .nan = .nan := by
  cases a <;> rfl

theorem foldl_add_nan (l : List NpReal) :
    l.foldl NpReal.add NpReal.nan = NpReal.nan := by
  induction l with
  | nil => rfl
  | cons a t ih =>
    have h : NpReal.nan.add a = NpReal.nan := by cases a <;> rfl
    rw [List.foldl_cons, h]
    exact ih

/-- A dot product over an all-`nan` row is `nan` (NaN propagates through
multiplication and summation). -/
theorem npDot_all_nan {xs : List NpReal} (h : ∀ a ∈ xs, a = .nan)
    (hne : xs ≠ []) {cs : List ℚ} (hcs : cs ≠ []) : npDot xs cs = .nan := by
  match xs, cs with
  | [], _ => exact absurd rfl hne
  | _, [] => exact absurd rfl hcs
  | a :: t, c :: ct =>
    have ha : a = .nan := h a (List.mem_cons_self a t)
    subst ha
    show (List.zipWith NpReal.mulQ (.nan :: t) (c :: ct)).foldl
      NpReal.add (.fin 0 1) = .nan
    rw [List.zipWith_cons_cons]
    show (NpReal.mulQ .nan c :: List.zipWith NpReal.mulQ t ct).foldl
      NpReal.add (.fin 0 1) = .nan
    rw [List.foldl_cons]
    have : NpReal.add (.fin 0 1) (NpReal.mulQ .nan c) = .nan := rfl
    rw [this, foldl_add_nan]

/-- The score computed from a zero-norm row is `nan`. -/
theorem npScoreRow_of_sumSq_zero {row c : List ℚ} (hz : sumSq row = 0)
    (hne : row ≠ []) (hc : c ≠ []) : npScoreRow row c = .nan := by
  unfold npScoreRow
  rw [npNormalizeRow_of_sumSq_zero hz]
  refine npDot_all_nan ?_ ?_ hc
  · intro a ha
    rcases List.mem_map.1 ha with ⟨x, _, rfl⟩
    rfl
  · simpa using hne

theorem getD_zipWith_score : ∀ (as bs : List (List ℚ)) (i : ℕ),
    i < as.length → i < bs.length →
    (List.zipWith npScoreRow as bs).getD i .nan =
      npScoreRow (as.getD i []) (bs.getD i []) := by
  intro as
  induction as with
  | nil => intro bs i h _; simp at h
  | cons a t ih =>
    intro bs i h1 h2
    match bs, i with
    | [], _ => simp at h2
    | b :: bt, 0 => rfl
    | b :: bt, j + 1 =>
      rw [List.zipWith_cons_cons]
      simp only [List.getD_cons_succ]
      exact ih bt j (by simpa using h1) (by simpa using h2)

/-- Claim C2 (amended): when the projected weight matrix `P = W Xᵀ` has a
zero-norm row `i`, the scoring step of lines 160-165 does NOT raise: numpy
division by the zero norm only warns, the row normalizes to all-`nan`, and
the score of class `i` is computed as `nan`. -/
theorem C2_zero_norm_row_scores_nan (W X carrier P : List (List ℚ)) (i : ℕ)
    (hP : matMulT W X = Except.ok P)
    (hlen : P.length = carrier.length)
    (hwid : ∀ pc ∈ P.zip carrier, pc.1.length = pc.2.length)
    (hi : i < P.length)
    (hne : P.getD i [] ≠ [])
    (hzero : sumSq (P.getD i []) = 0) :
    projectNormalizeScore W X carrier =
      Except.ok (List.zipWith npScoreRow P carrier) ∧
    (List.zipWith npScoreRow P carrier).getD i NpReal.nan = NpReal.nan := by
  have hi' : i < carrier.length := hlen ▸ hi
  have hcne : carrier.getD i [] ≠ [] := by
    have hzlen : i < (P.zip carrier).length := by
      rw [List.length_zip]
      exact lt_min hi hi'
    have heq : (P.zip carrier)[i] = (P.getD i [], carrier.getD i []) := by
      rw [List.getElem_zip, List.getD_eq_getElem?_getD, List.getD_eq_getElem?_getD,
        List.getElem?_eq_getElem hi, List.getElem?_eq_getElem hi']
      rfl
    have hmem : (P.getD i [], carrier.getD i []) ∈ P.zip carrier := by
      rw [← heq]
      exact List.getElem_mem hzlen
    have hlens := hwid _ hmem
    intro hcontra
    rw [hcontra] at hlens
    exact hne (List.length_eq_zero.1 (by simpa using hlens))
  constructor
  · unfold projectNormalizeScore
    rw [hP]
    show (if P.length = carrier.length ∧
        ∀ pc ∈ P.zip carrier, pc.1.length = pc.2.length then
      Except.ok (List.zipWith npScoreRow P carrier)
    else Except.error "ValueError: operands could not be broadcast together") =
      Except.ok (List.zipWith npScoreRow P carrier)
    rw [if_pos ⟨hlen, hwid⟩]
  · rw [getD_zipWith_score P carrier i hi hi']
    exact npScoreRow_of_sumSq_zero hzero hne hcne

/-- Witness for C2 (amended) at the concrete zero row `W = [[0,0]]`,
`X = I₂`, `carrier = [[1,0]]`. -/
theorem C2_zero_norm_row_scores_nan_witness :
    projectNormalizeScore [[(0:ℚ), 0]] [[1, 0], [0, 1]] [[1, 0]] =
      Except.ok (List.zipWith npScoreRow [[(0:ℚ), 0]] [[1, 0]]) ∧
    (List.zipWith npScoreRow [[(0:ℚ), 0]] [[1, 0]]).getD 0 NpReal.nan =
      NpReal.nan :=
  C2_zero_norm_row_scores_nan [[0, 0]] [[1, 0], [0, 1]] [[1, 0]] [[0, 0]] 0
    (by norm_num [matMulT, matWidth, dotQ]) (by rfl) (by decide) (by decide)
    (by decide) (by norm_num [sumSq])

/-- Counterexample to claim C2 as stated: for the zero-norm projected row
`[0, 0]` the normalization step completes WITHOUT a fatal error and a score
(IEEE `nan`) IS computed from the zero-norm row. -/
theorem C2_counterexample :
    sumSq [(0:ℚ), 0] = 0 ∧
    projectNormalizeScore [[(0:ℚ), 0]] [[1, 0], [0, 1]] [[1, 0]] =
      Except.ok [NpReal.nan] := by
  constructor
  · norm_num [sumSq]
  · norm_num [projectNormalizeScore, matMulT, matWidth, dotQ, Except.bind,
      npScoreRow, npNormalizeRow, sumSq, npDivBySqrt, npDot, NpReal.mulQ,
      NpReal.add]

/-! ### FeatureExtractor lemmas -/

theorem batchRowSum_cons (b : List (List ℚ)) (bs : List (List (List ℚ))) :
    batchRowSum (b :: bs) = b.length + batchRowSum bs := by
  simp [batchRowSum]

theorem expandRow_length {w : ℕ} {row : List ℚ} (h : row.length = w) :
    (expandRow w row).length = w := by
  unfold expandRow
  split
  · simp
  · exact h

theorem expandRow_length_eq {d : ℕ} {row : List ℚ}
    (h : row.length = d ∨ row.length = 1) : (expandRow d row).length = d := by
  unfold expandRow
  split
  next => simp
  next h1 =>
    rcases h with h | h
    · exact h
    · exact absurd h h1

theorem matWidth_eq {w : ℕ} {m : List (List ℚ)} (hne : m ≠ [])
    (hw : ∀ row ∈ m, row.length = w) : matWidth m = w := by
  cases m with
  | nil => exact absurd rfl hne
  | cons r t => exact hw r (List.mem_cons_self r t)

/-- A successful `sliceAssign` preserves the number of rows, and preserves
uniform row width. -/
theorem sliceAssign_preserves {mat src : List (List ℚ)} {off sz : ℕ}
    {m2 : List (List ℚ)} (h : sliceAssign mat off sz src = Except.ok m2) :
    m2.length = mat.length ∧
    ((∀ row ∈ mat, row.length = matWidth mat) →
      ∀ row ∈ m2, row.length = matWidth mat) := by
  unfold sliceAssign at h
  split at h
  next hcs =>
    split at h
    next hcond =>
      have hm2 := Except.ok.inj h
      constructor
      · rw [← hm2]
        simp only [List.length_append, List.length_take, List.length_map,
          List.length_range, List.length_drop]
        omega
      · intro hmat row hrow
        rw [← hm2] at hrow
        rcases List.mem_append.1 hrow with hrow | hrow
        · rcases List.mem_append.1 hrow with hrow | hrow
          · exact hmat row (List.mem_of_mem_take hrow)
          · rcases List.mem_map.1 hrow with ⟨j, hj, rfl⟩
            rw [List.mem_range] at hj
            have hlt : (if src.length = 1 then 0 else j) < src.length := by
              rcases hcond.1 with hsz | hsz <;> split <;> omega
            have hmem : src.getD (if src.length = 1 then 0 else j) [] ∈ src := by
              rw [List.getD_eq_getElem?_getD, List.getElem?_eq_getElem hlt]
              exact List.getElem_mem hlt
            have hlen : (src.getD (if src.length = 1 then 0 else j) []).length =
                matWidth src := hcs _ hmem
            rcases hcond.2 with hcd | hc1
            · rw [hcd] at hlen
              exact expandRow_length_eq (Or.inl hlen)
            · rw [hc1] at hlen
              exact expandRow_length_eq (Or.inr hlen)
        · exact hmat row (List.mem_of_mem_drop hrow)
    next => exact absurd h (by simp)
  next => exact absurd h (by simp)

/-- A `sliceAssign` of a nonempty uniform-width source that fits inside the
target succeeds and preserves the target's shape. -/
theorem sliceAssign_ok {n w : ℕ} {mat src : List (List ℚ)} {off : ℕ}
    (hn : mat.length = n) (hw : ∀ row ∈ mat, row.length = w)
    (hsne : src ≠ []) (hsw : ∀ row ∈ src, row.length = w)
    (hle : off + src.length ≤ n) :
    ∃ m2, sliceAssign mat off src.length src = Except.ok m2 ∧
      m2.length = n ∧ ∀ row ∈ m2, row.length = w := by
  have hpos : 1 ≤ src.length := by
    cases src with
    | nil => exact absurd rfl hsne
    | cons a t => simp
  have hmatne : mat ≠ [] := by
    intro hcontra
    rw [hcontra] at hn
    simp at hn
    omega
  have hd : matWidth mat = w := matWidth_eq hmatne hw
  have hmw : matWidth src = w := matWidth_eq hsne hsw
  have hr : min (off + src.length) mat.length - min off mat.length =
      src.length := by omega
  unfold sliceAssign
  rw [if_pos fun r hr' => by rw [hsw r hr', hmw], hr, hd, hmw]
  rw [if_pos ⟨Or.inl rfl, Or.inl rfl⟩]
  refine ⟨_, rfl, ?_, ?_⟩
  · simp only [List.length_append, List.length_take, List.length_map,
      List.length_range, List.length_drop]
    omega
  · intro row hrow
    rcases List.mem_append.1 hrow with hrow | hrow
    · rcases List.mem_append.1 hrow with hrow | hrow
      · exact hw row (List.mem_of_mem_take hrow)
      · rcases List.mem_map.1 hrow with ⟨j, hj, rfl⟩
        rw [List.mem_range] at hj
        have hlt : (if src.length = 1 then 0 else j) < src.length := by
          split <;> omega
        have hmem : src.getD (if src.length = 1 then 0 else j) [] ∈ src := by
          rw [List.getD_eq_getElem?_getD, List.getElem?_eq_getElem hlt]
          exact List.getElem_mem hlt
        exact expandRow_length (hsw _ hmem)
    · exact hw row (List.mem_of_mem_drop hrow)

/-- If the batch loop completes without an error, the batch row counts sum
to exactly the declared dataset size (the final `assert offset == n`). -/
theorem extractLoop_isOk_sum {n : ℕ} : ∀ (bs : List (List (List ℚ)))
    (fok : Option (List (List ℚ))) (off : ℕ),
    (extractLoop n fok off bs).isOk = true → off + batchRowSum bs = n := by
  intro bs
  induction bs with
  | nil =>
    intro fok off h
    cases fok with
    | none =>
      rw [extractLoop] at h
      split at h
      next heq => simpa [batchRowSum] using heq
      next => simp [Except.isOk, Except.toBool] at h
    | some f =>
      rw [extractLoop] at h
      split at h
      next heq => simpa [batchRowSum] using heq
      next => simp [Except.isOk, Except.toBool] at h
  | cons ft rest ih =>
    intro fok off h
    rw [batchRowSum_cons]
    cases fok with
    | none =>
      rw [extractLoop] at h
      cases hsa : sliceAssign (List.replicate n (List.replicate (matWidth ft) 0))
          off ft.length ft with
      | error e => rw [hsa] at h; simp [Except.isOk, Except.toBool] at h
      | ok m2 =>
        rw [hsa] at h
        have := ih (some m2) (off + ft.length) h
        omega
    | some f =>
      rw [extractLoop] at h
      cases hsa : sliceAssign f off ft.length ft with
      | error e => rw [hsa] at h; simp [Except.isOk, Except.toBool] at h
      | ok m2 =>
        rw [hsa] at h
        have := ih (some m2) (off + ft.length) h
        omega

/-- If every batch is nonempty with uniform width `w` and the remaining row
counts exactly fill the buffer, the loop completes and returns the full
`n`-row matrix. -/
theorem extractLoop_ok_of_shapes {n w : ℕ} : ∀ (bs : List (List (List ℚ)))
    (mat : List (List ℚ)) (off : ℕ),
    (∀ b ∈ bs, b ≠ [] ∧ ∀ row ∈ b, row.length = w) →
    mat.length = n → (∀ row ∈ mat, row.length = w) →
    off + batchRowSum bs = n →
    ∃ f, extractLoop n (some mat) off bs = Except.ok f ∧ f.length = n := by
  intro bs
  induction bs with
  | nil =>
    intro mat off _ hn _ hsum
    rw [batchRowSum] at hsum
    simp at hsum
    rw [extractLoop, if_pos hsum]
    exact ⟨mat, rfl, hn⟩
  | cons b rest ih =>
    intro mat off hb hn hw hsum
    rw [batchRowSum_cons] at hsum
    have hble := hb b (List.mem_cons_self b rest)
    have hfit : off + b.length ≤ n := by omega
    obtain ⟨m2, hsa, hm2n, hm2w⟩ := sliceAssign_ok hn hw hble.1 hble.2 hfit
    obtain ⟨f, hf, hfn⟩ := ih m2 (off + b.length)
      (fun b' hb' => hb b' (List.mem_cons_of_mem b hb')) hm2n hm2w (by omega)
    refine ⟨f, ?_, hfn⟩
    rw [extractLoop, hsa]
    exact hf

/-- Claim C6 (amended): for every declared dataset size `n` and nonempty
sequence of batches that all share one output width, extraction returns a
feature matrix of exactly `n` rows when the per-batch row counts sum to `n`,
and raises a fatal error whenever they do not (the final
`assert offset == n` when the batches fall short, a slice-shape error when
a prefix already overflows the buffer).  The width-uniformity hypothesis is
forced by the counterexample: mixed widths summing to `n` also abort. -/
theorem C6_row_count (n w : ℕ) (bs : List (List (List ℚ))) (hne : bs ≠ [])
    (hb : ∀ b ∈ bs, b ≠ [] ∧ ∀ row ∈ b, row.length = w) :
    (batchRowSum bs = n →
      ∃ f, extract_features n bs = Except.ok f ∧ f.length = n) ∧
    (batchRowSum bs ≠ n → (extract_features n bs).isOk = false) := by
  constructor
  · intro hsum
    cases bs with
    | nil => exact absurd rfl hne
    | cons b0 rest =>
      have hb0 := hb b0 (List.mem_cons_self b0 rest)
      have hw0 : matWidth b0 = w := matWidth_eq hb0.1 hb0.2
      rw [batchRowSum_cons] at hsum
      have hm0len :
          (List.replicate n (List.replicate (matWidth b0) (0:ℚ))).length = n := by
        simp
      have hm0w : ∀ row ∈ List.replicate n (List.replicate (matWidth b0) (0:ℚ)),
          row.length = w := by
        intro row hrow
        rw [List.eq_of_mem_replicate hrow]
        simp [hw0]
      have hfit : 0 + b0.length ≤ n := by omega
      obtain ⟨m1, hsa, hm1n, hm1w⟩ := sliceAssign_ok hm0len hm0w hb0.1 hb0.2 hfit
      obtain ⟨f, hf, hfn⟩ := extractLoop_ok_of_shapes rest m1 (0 + b0.length)
        (fun b' hb' => hb b' (List.mem_cons_of_mem b0 hb')) hm1n hm1w (by omega)
      refine ⟨f, ?_, hfn⟩
      rw [extract_features, extractLoop, hsa]
      exact hf
  · intro hsum
    cases hok : (extract_features n bs).isOk with
    | false => rfl
    | true =>
      rw [extract_features] at hok
      have := extractLoop_isOk_sum bs none 0 hok
      omega

/-- Witness for C6 (amended) at `n = 2` with two one-row batches of width 2. -/
theorem C6_row_count_witness :
    ∃ f, extract_features 2 [[[(1:ℚ), 2]], [[3, 4]]] = Except.ok f ∧
      f.length = 2 :=
  (C6_row_count 2 2 [[[(1:ℚ), 2]], [[3, 4]]] (by decide) (by decide)).1
    (by decide)

/-- Counterexample to claim C6 as stated: two one-row batches of widths 2 and
3 have row counts summing to the declared size `n = 2`, yet extraction
raises a slice-shape error instead of returning a 2-row feature matrix. -/
theorem C6_counterexample :
    batchRowSum [[[(0:ℚ), 0]], [[0, 0, 0]]] = 2 ∧
    extract_features 2 [[[(0:ℚ), 0]], [[0, 0, 0]]] =
      Except.error "RuntimeError: shape mismatch" := by
  exact ⟨by decide, by rfl⟩

/-- When a later batch has a width `w'` different from both the established
buffer width `w` and the broadcastable width 1, the run always aborts. -/
theorem extractLoop_err_of_bad {n w w' : ℕ} {bad : List (List ℚ)}
    (hww : w' ≠ w) (hw1 : w' ≠ 1) (hbadne : bad ≠ [])
    (hbadw : ∀ row ∈ bad, row.length = w') (hn1 : 1 ≤ n) :
    ∀ (pre : List (List (List ℚ))) (mat : List (List ℚ)) (off : ℕ)
      (post : List (List (List ℚ))),
    mat.length = n → (∀ row ∈ mat, row.length = w) →
    (extractLoop n (some mat) off (pre ++ bad :: post)).isOk = false := by
  intro pre
  induction pre with
  | nil =>
    intro mat off post hn hw
    have hmatne : mat ≠ [] := by
      intro hc
      rw [hc] at hn
      simp at hn
      omega
    have hd : matWidth mat = w := matWidth_eq hmatne hw
    have hmw : matWidth bad = w' := matWidth_eq hbadne hbadw
    have hsa : sliceAssign mat off bad.length bad =
        Except.error "RuntimeError: shape mismatch" := by
      unfold sliceAssign
      rw [if_pos (fun r hr => by rw [hbadw r hr, hmw])]
      rw [if_neg ?_]
      intro hcond
      rcases hcond.2 with hcd | hc1
      · rw [hmw, hd] at hcd
        exact hww hcd
      · rw [hmw] at hc1
        exact hw1 hc1
    rw [List.nil_append, extractLoop, hsa]
    rfl
  | cons p pre' ih =>
    intro mat off post hn hw
    have hmatne : mat ≠ [] := by
      intro hc
      rw [hc] at hn
      simp at hn
      omega
    have hd : matWidth mat = w := matWidth_eq hmatne hw
    rw [List.cons_append, extractLoop]
    cases hsa : sliceAssign mat off p.length p with
    | error e => rfl
    | ok m2 =>
      have hpres := sliceAssign_preserves hsa
      have hm2n : m2.length = n := by rw [hpres.1, hn]
      have hm2w : ∀ row ∈ m2, row.length = w := by
        intro row hrow
        rw [← hd]
        exact hpres.2 (fun r hr => by rw [hw r hr, hd]) row hrow
      exact ih m2 (off + p.length) post hm2n hm2w

/-- Claim C7 (amended): the feature width `d` is taken from the first batch;
a subsequent batch whose width differs from `d` aborts the run with a fatal
error UNLESS its width is 1, in which case torch broadcasts it across the
`d` columns and stores it silently (see the counterexample). -/
theorem C7_width_mismatch (n w w' : ℕ) (b0 bad : List (List ℚ))
    (pre post : List (List (List ℚ)))
    (hb0 : b0 ≠ []) (hb0w : ∀ row ∈ b0, row.length = w)
    (hbad : bad ≠ []) (hbadw : ∀ row ∈ bad, row.length = w')
    (hww : w' ≠ w) (hw1 : w' ≠ 1) :
    (extract_features n (b0 :: (pre ++ bad :: post))).isOk = false := by
  by_cases hn1 : 1 ≤ n
  · have hw0 : matWidth b0 = w := matWidth_eq hb0 hb0w
    rw [extract_features, extractLoop]
    cases hsa : sliceAssign (List.replicate n (List.replicate (matWidth b0) 0))
        0 b0.length b0 with
    | error e => rfl
    | ok m1 =>
      have hpres := sliceAssign_preserves hsa
      have hmat0 : matWidth (List.replicate n
          (List.replicate (matWidth b0) (0:ℚ))) = w := by
        cases n with
        | zero => omega
        | succ m =>
          rw [List.replicate_succ]
          show (List.replicate (matWidth b0) (0:ℚ)).length = w
          rw [List.length_replicate]
          exact hw0
      have hm1n : m1.length = n := by
        rw [hpres.1]
        simp
      have hm1w : ∀ row ∈ m1, row.length = w := by
        intro row hrow
        rw [← hmat0]
        refine hpres.2 ?_ row hrow
        intro r hr
        rw [List.eq_of_mem_replicate hr, hmat0]
        simp [hw0]
      show (extractLoop n (some m1) (0 + b0.length) (pre ++ bad :: post)).isOk =
        false
      rw [Nat.zero_add]
      exact extractLoop_err_of_bad hww hw1 hbad hbadw hn1 pre m1 b0.length
        post hm1n hm1w
  · cases hok : (extract_features n (b0 :: (pre ++ bad :: post))).isOk with
    | false => rfl
    | true =>
      rw [extract_features] at hok
      have hsum := extractLoop_isOk_sum _ none 0 hok
      rw [batchRowSum_cons] at hsum
      have : 1 ≤ b0.length := by
        cases b0 with
        | nil => exact absurd rfl hb0
        | cons r t => simp
      omega

/-- Witness for C7 (amended) at a second batch of width 3 against a first
batch of width 2. -/
theorem C7_width_mismatch_witness :
    (extract_features 2 ([[(1:ℚ), 2]] :: ([] ++ [[(3:ℚ), 4, 5]] :: []))).isOk =
      false :=
  C7_width_mismatch 2 2 3 [[(1:ℚ), 2]] [[(3:ℚ), 4, 5]] [] [] (by decide)
    (by decide) (by decide) (by decide) (by decide) (by decide)

/-- Counterexample to claim C7 as stated: the second batch has width 1,
different from the established width `d = 2`, yet the run does not abort:
torch broadcasts the row `[3]` to `[3, 3]` and stores it. -/
theorem C7_counterexample :
    matWidth [[(1:ℚ), 2]] = 2 ∧ matWidth [[(3:ℚ)]] = 1 ∧
    extract_features 2 [[[(1:ℚ), 2]], [[3]]] =
      Except.ok [[(1:ℚ), 2], [3, 3]] :=
  ⟨rfl, rfl, rfl⟩

/-! ### PValueCombiner lemmas -/

/-- Termwise derivative of the truncated exponential series, re-indexed. -/
theorem deriv_sum_eq (m : ℕ) (y : ℝ) :
    ∑ i ∈ Finset.range (m + 1), (i : ℝ) * y ^ (i - 1) / (i.factorial : ℝ) =
      ∑ i ∈ Finset.range m, y ^ i / (i.factorial : ℝ) := by
  rw [Finset.sum_range_succ']
  have h0 : ((0:ℕ) : ℝ) * y ^ (0 - 1) / ((Nat.factorial 0 : ℕ) : ℝ) = 0 := by
    simp
  rw [h0, add_zero]
  refine Finset.sum_congr rfl fun i _ => ?_
  have hfac : (((i + 1).factorial : ℕ) : ℝ) =
      ((i + 1 : ℕ) : ℝ) * ((i.factorial : ℕ) : ℝ) := by
    rw [Nat.factorial_succ]
    push_cast
    ring
  have hne : ((i + 1 : ℕ) : ℝ) ≠ 0 := by positivity
  have hfne : ((i.factorial : ℕ) : ℝ) ≠ 0 := by
    exact_mod_cast i.factorial_ne_zero
  rw [Nat.add_sub_cancel, hfac]
  field_simp
  ring

/-- Derivative of the Erlang tail `exp (-y) * ∑_{i<k} y^i/i!`. -/
theorem hasDerivAt_chi2_aux (k : ℕ) (hk : 1 ≤ k) (y : ℝ) :
    HasDerivAt
      (fun t : ℝ => Real.exp (-t) * ∑ i ∈ Finset.range k, t ^ i / (i.factorial : ℝ))
      (-(Real.exp (-y) * (y ^ (k - 1) / (((k - 1).factorial : ℕ) : ℝ)))) y := by
  obtain ⟨m, rfl⟩ : ∃ m, k = m + 1 := ⟨k - 1, by omega⟩
  have hexp : HasDerivAt (fun t : ℝ => Real.exp (-t)) (-Real.exp (-y)) y := by
    simpa using (hasDerivAt_neg y).exp
  have hsum : HasDerivAt
      (fun t : ℝ => ∑ i ∈ Finset.range (m + 1), t ^ i / (i.factorial : ℝ))
      (∑ i ∈ Finset.range m, y ^ i / (i.factorial : ℝ)) y := by
    have h := HasDerivAt.sum
      (fun i (_ : i ∈ Finset.range (m + 1)) =>
        (hasDerivAt_pow i y).div_const ((i.factorial : ℕ) : ℝ))
    rw [deriv_sum_eq] at h
    exact h
  have hmul := hexp.mul hsum
  convert hmul using 1
  rw [Finset.sum_range_succ]
  simp only [Nat.add_sub_cancel]
  ring

/-- The Erlang tail is antitone on the nonnegative reals. -/
theorem chi2_aux_anti (k : ℕ) : ∀ x y : ℝ, 0 ≤ x → x ≤ y →
    Real.exp (-y) * ∑ i ∈ Finset.range k, y ^ i / (i.factorial : ℝ) ≤
      Real.exp (-x) * ∑ i ∈ Finset.range k, x ^ i / (i.factorial : ℝ) := by
  cases k with
  | zero =>
    intro x y _ _
    simp
  | succ m =>
    have hanti : AntitoneOn
        (fun t : ℝ => Real.exp (-t) *
          ∑ i ∈ Finset.range (m + 1), t ^ i / (i.factorial : ℝ)) (Ici 0) := by
      refine @antitoneOn_of_hasDerivWithinAt_nonpos (Ici 0) (convex_Ici 0) _
        (fun t => -(Real.exp (-t) * (t ^ m / ((Nat.factorial m : ℕ) : ℝ))))
        ?_ ?_ ?_
      · intro t _
        exact (hasDerivAt_chi2_aux (m + 1) (by omega) t).continuousAt.continuousWithinAt
      · intro t _
        exact (hasDerivAt_chi2_aux (m + 1) (by omega) t).hasDerivWithinAt
      · intro t ht
        rw [interior_Ici] at ht
        have hnn : (0:ℝ) ≤ Real.exp (-t) *
            (t ^ m / ((Nat.factorial m : ℕ) : ℝ)) := by
          have h1 : (0:ℝ) ≤ t ^ m := pow_nonneg (le_of_lt ht) m
          have h2 : (0:ℝ) < ((Nat.factorial m : ℕ) : ℝ) := by
            exact_mod_cast m.factorial_pos
          positivity
        simpa using neg_nonpos.2 hnn
    intro x y hx hxy
    exact hanti hx (le_trans hx hxy) hxy

/-- `chi2.sf` at even degrees of freedom is antitone on `[0, ∞)`. -/
theorem chi2_sf_even_anti {k : ℕ} {x y : ℝ} (hx : 0 ≤ x) (hxy : x ≤ y) :
    chi2_sf_even k y ≤ chi2_sf_even k x := by
  unfold chi2_sf_even
  rw [if_neg (not_lt.2 (le_trans hx hxy)), if_neg (not_lt.2 hx)]
  exact chi2_aux_anti k (x / 2) (y / 2) (by linarith) (by linarith)

theorem chi2_sf_even_nonneg (k : ℕ) {x : ℝ} (hx : 0 ≤ x) :
    0 ≤ chi2_sf_even k x := by
  unfold chi2_sf_even
  split
  · norm_num
  · refine mul_nonneg (le_of_lt (Real.exp_pos _)) (Finset.sum_nonneg fun i _ => ?_)
    have h1 : (0:ℝ) ≤ (x / 2) ^ i := pow_nonneg (by linarith) i
    have h2 : (0:ℝ) < ((i.factorial : ℕ) : ℝ) := by exact_mod_cast i.factorial_pos
    positivity

theorem list_sum_log_nonpos {l : List ℝ} (h : ∀ p ∈ l, 0 ≤ p ∧ p ≤ 1) :
    (l.map Real.log).sum ≤ 0 := by
  induction l with
  | nil => simp
  | cons a t ih =>
    simp only [List.map_cons, List.sum_cons]
    have ha := h a (List.mem_cons_self a t)
    have hla := Real.log_nonpos ha.1 ha.2
    have ht := ih fun p hp => h p (List.mem_cons_of_mem a hp)
    linarith

theorem combine_pvalues_nonneg {ps : List ℝ} (h : ∀ p ∈ ps, 0 ≤ p ∧ p ≤ 1) :
    0 ≤ combine_pvalues ps := by
  unfold combine_pvalues
  split
  · refine chi2_sf_even_nonneg _ ?_
    have := list_sum_log_nonpos h
    linarith
  · exact le_refl 0

/-- Fisher's combination of two equal p-values `a ∈ (0, 1]` in closed form. -/
theorem combine_two_eq (a : ℝ) (ha : 0 < a) (ha1 : a ≤ 1) :
    combine_pvalues [a, a] = a ^ 2 * (1 - 2 * Real.log a) := by
  have hne : a ≠ 0 := ne_of_gt ha
  have hcond : ∀ p ∈ [a, a], p ≠ 0 := by
    intro p hp
    simp only [List.mem_cons, List.not_mem_nil, or_false] at hp
    rcases hp with rfl | rfl <;> exact hne
  unfold combine_pvalues
  rw [if_pos hcond]
  simp only [List.map_cons, List.map_nil, List.sum_cons, List.sum_nil,
    List.length_cons, List.length_nil, add_zero]
  have hT : -2 * (Real.log a + Real.log a) = -4 * Real.log a := by ring
  rw [hT]
  unfold chi2_sf_even
  have hla : Real.log a ≤ 0 := Real.log_nonpos (le_of_lt ha) ha1
  rw [if_neg (by linarith : ¬(-4 * Real.log a < 0))]
  rw [Finset.sum_range_succ, Finset.sum_range_succ, Finset.sum_range_zero]
  have hexp : Real.exp (-(-4 * Real.log a / 2)) = a ^ 2 := by
    have h1 : -(-4 * Real.log a / 2) = Real.log a + Real.log a := by ring
    rw [h1, Real.exp_add, Real.exp_log ha]
    ring
  rw [hexp]
  have hfac0 : ((Nat.factorial 0 : ℕ) : ℝ) = 1 := by norm_num [Nat.factorial]
  have hfac1 : ((Nat.factorial 1 : ℕ) : ℝ) = 1 := by norm_num [Nat.factorial]
  rw [hfac0, hfac1]
  ring

/-- Claim C8: the p-value combiner (Fisher's method) is monotone: decreasing
any one input p-value in `[0,1]` while holding the others fixed does not
increase the combined value; combining `[0.5, 0.5]` gives a strictly smaller
value than `[0.9, 0.9]`; and combining `N ≥ 1` copies of `1.0` returns
exactly `1`. -/
theorem C8_combiner_monotone :
    (∀ (l1 l2 : List ℝ) (p q : ℝ),
      (∀ r ∈ l1, 0 ≤ r ∧ r ≤ 1) → (∀ r ∈ l2, 0 ≤ r ∧ r ≤ 1) →
      0 ≤ q → q ≤ p → p ≤ 1 →
      combine_pvalues (l1 ++ q :: l2) ≤ combine_pvalues (l1 ++ p :: l2)) ∧
    combine_pvalues [(1:ℝ)/2, 1/2] < combine_pvalues [(9:ℝ)/10, 9/10] ∧
    (∀ N : ℕ, 1 ≤ N → combine_pvalues (List.replicate N 1) = 1) := by
  refine ⟨?_, ?_, ?_⟩
  · intro l1 l2 p q h1 h2 hq0 hqp hp1
    by_cases hz : ∀ r ∈ l1 ++ q :: l2, r ≠ 0
    · have hq : q ≠ 0 := hz q (List.mem_append_right _ (List.mem_cons_self q l2))
      have hqpos : 0 < q := lt_of_le_of_ne hq0 (Ne.symm hq)
      have hppos : 0 < p := lt_of_lt_of_le hqpos hqp
      have hzp : ∀ r ∈ l1 ++ p :: l2, r ≠ 0 := by
        intro r hr
        rcases List.mem_append.1 hr with hr | hr
        · exact hz r (List.mem_append_left _ hr)
        · rcases List.mem_cons.1 hr with rfl | hr
          · exact ne_of_gt hppos
          · exact hz r (List.mem_append_right _ (List.mem_cons_of_mem _ hr))
      unfold combine_pvalues
      rw [if_pos hz, if_pos hzp]
      have hlen : (l1 ++ q :: l2).length = (l1 ++ p :: l2).length := by simp
      rw [hlen]
      have hsums : ∀ x : ℝ, ((l1 ++ x :: l2).map Real.log).sum =
          (l1.map Real.log).sum + (Real.log x + (l2.map Real.log).sum) := by
        intro x
        simp [List.sum_append]
      rw [hsums q, hsums p]
      have hl1 : (l1.map Real.log).sum ≤ 0 := list_sum_log_nonpos h1
      have hl2 : (l2.map Real.log).sum ≤ 0 := list_sum_log_nonpos h2
      have hlp : Real.log p ≤ 0 := Real.log_nonpos (le_of_lt hppos) hp1
      have hlog := Real.log_le_log hqpos hqp
      exact chi2_sf_even_anti (by linarith) (by linarith)
    · have hzero : combine_pvalues (l1 ++ q :: l2) = 0 := by
        unfold combine_pvalues
        rw [if_neg hz]
      rw [hzero]
      refine combine_pvalues_nonneg ?_
      intro r hr
      rcases List.mem_append.1 hr with hr | hr
      · exact h1 r hr
      · rcases List.mem_cons.1 hr with rfl | hr
        · exact ⟨le_trans hq0 hqp, hp1⟩
        · exact h2 r hr
  · rw [combine_two_eq ((1:ℝ)/2) (by norm_num) (by norm_num),
      combine_two_eq ((9:ℝ)/10) (by norm_num) (by norm_num)]
    have h2 : Real.log ((1:ℝ)/2) = -Real.log 2 := by
      rw [one_div, Real.log_inv]
    rw [h2]
    have hub := Real.log_two_lt_d9
    have hlb := Real.log_two_gt_d9
    have hl9 : Real.log ((9:ℝ)/10) < -(1/10) := by
      have := Real.log_lt_sub_one_of_pos (by norm_num : (0:ℝ) < 9/10)
        (by norm_num)
      linarith
    nlinarith
  · intro N hN
    have hcond : ∀ p ∈ List.replicate N (1:ℝ), p ≠ 0 := by
      intro p hp
      rw [List.eq_of_mem_replicate hp]
      norm_num
    unfold combine_pvalues
    rw [if_pos hcond]
    have hmap : (List.replicate N (1:ℝ)).map Real.log = List.replicate N 0 := by
      rw [List.map_replicate, Real.log_one]
    rw [hmap, List.sum_replicate]
    simp only [smul_zero, mul_zero, List.length_replicate]
    unfold chi2_sf_even
    rw [if_neg (lt_irrefl 0)]
    have hsum : ∑ i ∈ Finset.range N, ((0:ℝ) / 2) ^ i / (i.factorial : ℝ) = 1 := by
      rw [zero_div]
      rw [Finset.sum_eq_single 0]
      · norm_num
      · intro b _ hb
        rw [zero_pow hb]
        simp
      · intro h0
        exact absurd (Finset.mem_range.2 (by omega)) h0
    rw [hsum]
    norm_num

/-- Witness for C8 at a concrete decrease `1 → 1/2` in a singleton
collection, and `N = 2` copies of `1.0`. -/
theorem C8_combiner_monotone_witness :
    combine_pvalues ([] ++ (1/2 : ℝ) :: []) ≤
      combine_pvalues ([] ++ (1 : ℝ) :: []) ∧
    combine_pvalues (List.replicate 2 (1:ℝ)) = 1 :=
  ⟨C8_combiner_monotone.1 [] [] 1 (1/2) (by simp) (by simp) (by norm_num)
      (by norm_num) le_rfl,
   C8_combiner_monotone.2.2 2 (by norm_num)⟩

/-- Claim C10: `cosine_pvalue` rejects every argument whose runtime type is not
exactly float, np.float64 or np.float32 with an `AssertionError`; in
particular the integer literals 0, 1 and -1. -/
theorem C10_type_assert (c : PyVal) (d : ℕ) (h : isFloatLike c = false) :
    cosine_pvalue_checked c d = .error "AssertionError" := by
  cases c <;> first | rfl | simp [isFloatLike] at h

/-- Witness for C10 at the concrete input `int 0` with `d = 2` (and the other
two integer literals from the claim). -/
theorem C10_type_assert_witness :
    cosine_pvalue_checked (.pyInt 0) 2 = .error "AssertionError" ∧
    cosine_pvalue_checked (.pyInt 1) 2 = .error "AssertionError" ∧
    cosine_pvalue_checked (.pyInt (-1)) 2 = .error "AssertionError" :=
  ⟨C10_type_assert (.pyInt 0) 2 (by decide),
   C10_type_assert (.pyInt 1) 2 (by decide),
   C10_type_assert (.pyInt (-1)) 2 (by decide)⟩

end Radioactive
